import Mathlib

/-!
Verification development for the spider web crawler
(spider_project/spider.py).

URLs and header values are modelled as lists of characters. The Python
standard library helpers used by the program (urllib.parse.urlparse,
urllib.parse.urljoin, os.path.basename, os.path.splitext, os.path.join)
are external collaborators of the repository; they are modelled here from
the CPython reference implementation, restricted to the textual behaviour
the spider exercises (the CPython ValueError raised on unbalanced square
brackets in a netloc is not modelled; no claim involves such inputs).
-/

/-- Shorthand turning a string literal into its character list. -/
def chars (s : String) : List Char := s.data

/-- Model of Python str.lower restricted to the ASCII range used here. -/
def lowerStr (l : List Char) : List Char := l.map Char.toLower

/-- Model of Python str.strip with no argument: drop leading and trailing
whitespace. -/
def stripChars (l : List Char) : List Char :=
  ((l.dropWhile Char.isWhitespace).reverse.dropWhile Char.isWhitespace).reverse

/-- Split a list at the first occurrence of a separator character, the
shape of Python s.split(sep, 1) and s.find(sep). The first component is
the part before the separator (the whole list when the separator is
absent); the second is the remainder after the separator, when found. -/
def splitOnFirst (sep : Char) : List Char → List Char × Option (List Char)
  | [] => ([], none)
  | c :: cs =>
    if c = sep then ([], some cs)
    else
      let r := splitOnFirst sep cs
      (c :: r.1, r.2)

/-- Model of Python path.rstrip with argument "/": remove every trailing
slash. -/
def rstripSlash : List Char → List Char
  | [] => []
  | c :: cs =>
    let r := rstripSlash cs
    if c = '/' ∧ r = [] then [] else c :: r

/-- Model of Python s.split(sep) producing every field; the empty string
splits to a single empty field, as in CPython. -/
def splitAll (sep : Char) : List Char → List (List Char)
  | [] => [[]]
  | c :: cs =>
    if c = sep then [] :: splitAll sep cs
    else
      match splitAll sep cs with
      | [] => [[c]]
      | a :: rest => (c :: a) :: rest

/-- Model of Python sep.join restricted to the single slash separator. -/
def joinSlash : List (List Char) → List Char
  | [] => []
  | [x] => x
  | x :: rest => x ++ '/' :: joinSlash rest

/-- Substring test, the shape of the Python expression t in s. -/
def containsSub : List Char → List Char → Bool
  | n, [] => n.isEmpty
  | n, c :: rest => List.isPrefixOf n (c :: rest) || containsSub n rest

/-- Result record of urllib.parse.urlsplit and urlparse; the params
component produced by urlparse is dropped because the spider never reads
it. -/
structure UrlParts where
  scheme : List Char
  netloc : List Char
  path : List Char
  query : List Char
  fragment : List Char
deriving DecidableEq

/-- Characters CPython accepts inside a URL scheme. -/
def schemeCharOk (c : Char) : Bool :=
  c.isAlpha || c.isDigit || c = '+' || c = '-' || c = '.'

/-- CPython check that the text before the first colon is a usable scheme:
nonempty, starts with an ASCII letter, and made of scheme characters. -/
def validSchemePre (pre : List Char) : Bool :=
  match pre with
  | [] => false
  | c :: _ => c.isAlpha && pre.all schemeCharOk

/-- Scheme extraction step of CPython urlsplit, with the default scheme
argument: the text before the first colon becomes the lower-cased scheme
when it is well formed, otherwise the default is kept and the input is
left whole. -/
def splitSchemeD (url default_scheme : List Char) : List Char × List Char :=
  match splitOnFirst ':' url with
  | (pre, some r) =>
    if validSchemePre pre then (lowerStr pre, r) else (default_scheme, url)
  | (_, none) => (default_scheme, url)

/-- Character that terminates the netloc component in CPython urlsplit. -/
def netlocEnd (c : Char) : Bool := c = '/' || c = '?' || c = '#'

/-- Netloc extraction step of CPython urlsplit: when the remaining text
starts with two slashes, the netloc runs to the first slash, question
mark, or hash. -/
def splitNetloc (rest : List Char) : List Char × List Char :=
  match rest with
  | '/' :: '/' :: r =>
    (r.takeWhile (fun c => !(netlocEnd c)), r.dropWhile (fun c => !(netlocEnd c)))
  | _ => ([], rest)

/-- Fragment extraction step of CPython urlsplit: split at the first
hash. -/
def splitFrag (l : List Char) : List Char × List Char :=
  let p := splitOnFirst '#' l
  (p.1, p.2.getD [])

/-- Query extraction step of CPython urlsplit: split at the first question
mark of the pre-fragment text. -/
def splitQuery (l : List Char) : List Char × List Char :=
  let p := splitOnFirst '?' l
  (p.1, p.2.getD [])

/-- Model of urllib.parse.urlsplit with a default scheme argument. -/
def urlsplitD (url default_scheme : List Char) : UrlParts :=
  let sr := splitSchemeD url default_scheme
  let nr := splitNetloc sr.2
  let fr := splitFrag nr.2
  let qr := splitQuery fr.1
  ⟨sr.1, nr.1, qr.1, qr.2, fr.2⟩

/-- Schemes for which CPython urlparse splits params off the path. -/
def usesParams : List (List Char) :=
  ["", "ftp", "hdl", "prospero", "http", "imap", "https", "shttp", "rtsp",
   "rtspu", "sip", "sips", "mms", "sftp", "tel"].map String.data

/-- Model of CPython urllib.parse._splitparams: drop everything from the
first semicolon of the last path segment. -/
def splitparams (p : List Char) : List Char × List Char :=
  if '/' ∈ p then
    let revp := p.reverse
    let lastSeg := (revp.takeWhile (fun c => !(c = '/'))).reverse
    let pre := (revp.dropWhile (fun c => !(c = '/'))).reverse
    match splitOnFirst ';' lastSeg with
    | (a, some b) => (pre ++ a, b)
    | (_, none) => (p, [])
  else
    match splitOnFirst ';' p with
    | (a, some b) => (a, b)
    | (_, none) => (p, [])

/-- Model of urllib.parse.urlparse as the spider calls it (no default
scheme): urlsplit followed by params splitting for the relevant
schemes. -/
def urlparse (url : List Char) : UrlParts :=
  let s := urlsplitD url []
  if s.scheme ∈ usesParams ∧ ';' ∈ s.path then
    { s with path := (splitparams s.path).1 }
  else s

/-- Model of urllib.parse.urlunsplit. -/
def urlunsplit (p : UrlParts) : List Char :=
  let url := p.path
  let url :=
    if p.netloc ≠ [] ∨ (url ≠ [] ∧ url.take 2 = ['/', '/']) then
      '/' :: '/' :: p.netloc ++
        (match url with
         | [] => []
         | c :: _ => if c = '/' then url else '/' :: url)
    else url
  let url := if p.scheme ≠ [] then p.scheme ++ ':' :: url else url
  let url := if p.query ≠ [] then url ++ '?' :: p.query else url
  if p.fragment ≠ [] then url ++ '#' :: p.fragment else url

/-- Schemes CPython urljoin treats as supporting relative resolution. -/
def usesRelative : List (List Char) :=
  ["", "ftp", "http", "gopher", "nntp", "imap", "wais", "file", "https",
   "shttp", "mms", "prospero", "rtsp", "rtspu", "sftp", "svn", "svn+ssh",
   "ws", "wss"].map String.data

/-- Schemes CPython urljoin treats as carrying a netloc. -/
def usesNetloc : List (List Char) :=
  ["", "ftp", "http", "gopher", "nntp", "telnet", "imap", "wais", "file",
   "mms", "https", "shttp", "snews", "prospero", "rtsp", "rtspu", "rsync",
   "svn", "svn+ssh", "sftp", "nfs", "git", "git+ssh", "ws",
   "wss"].map String.data

/-- Middle filtering step of CPython urljoin: drop empty segments strictly
between the first and the last one. -/
def filterMiddle (l : List (List Char)) : List (List Char) :=
  match l with
  | [] => []
  | x :: rest =>
    match rest.getLast? with
    | none => [x]
    | some lastSeg =>
      x :: (rest.dropLast.filter (fun s => !(s.isEmpty))) ++ [lastSeg]

/-- Dot-segment resolution loop of CPython urljoin. -/
def resolveSegments (segments : List (List Char)) : List (List Char) :=
  segments.foldl
    (fun acc seg =>
      if seg = chars ".." then acc.dropLast
      else if seg = chars "." then acc
      else acc ++ [seg])
    []

/-- Model of urllib.parse.urljoin, following the CPython reference
implementation built on urlsplit. -/
def urljoinM (base url : List Char) : List Char :=
  if base = [] then url
  else if url = [] then base
  else
    let b := urlsplitD base []
    let u := urlsplitD url b.scheme
    if ¬ (u.scheme = b.scheme ∧ u.scheme ∈ usesRelative) then url
    else if u.scheme ∈ usesNetloc ∧ u.netloc ≠ [] then urlunsplit u
    else
      let netloc := if u.scheme ∈ usesNetloc then b.netloc else u.netloc
      if u.path = [] then
        let q := if u.query = [] then b.query else u.query
        urlunsplit ⟨u.scheme, netloc, b.path, q, u.fragment⟩
      else
        let base_parts0 := splitAll '/' b.path
        let base_parts :=
          if base_parts0.getLast? = some [] then base_parts0
          else base_parts0.dropLast
        let segments :=
          match u.path with
          | '/' :: _ => splitAll '/' u.path
          | _ => filterMiddle (base_parts ++ splitAll '/' u.path)
        let resolved := resolveSegments segments
        let resolved :=
          if segments.getLast? = some (chars ".") ∨
             segments.getLast? = some (chars "..") then resolved ++ [[]]
          else resolved
        let joined := joinSlash resolved
        let path := if joined = [] then ['/'] else joined
        urlunsplit ⟨u.scheme, netloc, path, u.query, u.fragment⟩

/-- Model of Spider.is_valid_url: the URL parses with scheme http or https
and a nonempty netloc. -/
def is_valid_url (url : List Char) : Bool :=
  let parsed := urlparse url
  (parsed.scheme = chars "http" ∨ parsed.scheme = chars "https") ∧
    parsed.netloc ≠ []

/-- Model of Spider.normalize_url: reassemble scheme, netloc, and the path
with trailing slashes stripped. -/
def normalize_url (url : List Char) : List Char :=
  let parsed := urlparse url
  parsed.scheme ++ ':' :: '/' :: '/' :: (parsed.netloc ++ rstripSlash parsed.path)

/-- Fetched page as the HTML parser collaborator exposes it to the spider:
the href values of anchors, the src values of img elements, both in
document order, and the Content-Type response header used by
download_image. -/
structure Page where
  anchors : List (List Char)
  imgs : List (List Char)
  contentType : List Char

/-- Response of the HEAD probe collaborator. -/
structure HeadResp where
  status : Nat
  contentType : List Char

/-- External world of one crawl run: pages answers session.get (none is a
RequestException, making get_page return None), headResp answers
session.head (none is a raised exception), guessExt answers
mimetypes.guess_extension. All collaborators are deterministic
functions of the URL, matching the single-threaded synchronous crawl. -/
structure Env where
  pages : List Char → Option Page
  headResp : List Char → Option HeadResp
  guessExt : List Char → Option (List Char)

/-- Extensions the classifier accepts without a probe, in source order. -/
def imageExts : List (List Char) :=
  [".jpg", ".jpeg", ".png", ".gif", ".bmp"].map String.data

/-- Content types the classifier accepts from a probe, in source order. -/
def imageTypes : List (List Char) :=
  ["image/jpeg", "image/png", "image/gif", "image/bmp"].map String.data

/-- Per-candidate classification step of Spider.get_all_images, returning
the decision together with the number of HEAD probe calls it issued. A
probe exception (none) leaves the candidate classified as not an image,
matching the except branch that continues the loop. -/
def classifyImage (head : List Char → Option HeadResp) (absolute_url : List Char) :
    Bool × Nat :=
  let parsed := urlparse absolute_url
  let path := lowerStr parsed.path
  if imageExts.any (fun e => List.isSuffixOf e path) then (true, 0)
  else
    match head absolute_url with
    | none => (false, 1)
    | some h =>
      if h.status = 200 then
        (imageTypes.any (fun t => containsSub t (lowerStr h.contentType)), 1)
      else (false, 1)

/-- Deterministic model of a Python set grown by add and read back with
list: membership test before appending. Iteration order of a CPython set
is unspecified; this model fixes insertion order, and no claim depends on
the order. -/
def insertSet (l : List (List Char)) (x : List Char) : List (List Char) :=
  if x ∈ l then l else l ++ [x]

/-- Loop body of Spider.get_all_images over one img src value. -/
def imgStep (env : Env) (url : List Char) (images : List (List Char))
    (rawSrc : List Char) : List (List Char) :=
  let src := stripChars rawSrc
  if src = [] then images
  else
    let absolute_url := urljoinM url src
    if (classifyImage env.headResp absolute_url).1 then insertSet images absolute_url
    else images

/-- Loop body of Spider.get_all_links over one anchor href value. Note the
source skips href values starting with a hash or with javascript: but has
no emptiness test, so an empty href flows into urljoin, which returns the
base URL. -/
def processHref (base_url : List Char) (links : List (List Char))
    (rawHref : List Char) : List (List Char) :=
  let href := stripChars rawHref
  if List.isPrefixOf ['#'] href then links
  else if List.isPrefixOf (chars "javascript:") href then links
  else
    let absolute_url := urljoinM base_url href
    let normalized_url := normalize_url absolute_url
    if is_valid_url normalized_url then insertSet links normalized_url
    else links

/-- Observable state of one crawl run: the visited set (Spider.visited,
newest first), the log of URLs that passed the guard together with their
depth (the Crawling print, newest first), the chronological log of
get_page calls, and the chronological list of image URLs handed to
download_image. -/
structure CrawlSt where
  visited : List (List Char)
  crawlLog : List (List Char × Nat)
  fetched : List (List Char)
  downloads : List (List Char)

/-- Empty state at the start of a run. -/
def initSt : CrawlSt := ⟨[], [], [], []⟩

/-- Model of Spider.get_page: record the GET attempt and consult the HTTP
collaborator. -/
def getPage (env : Env) (st : CrawlSt) (url : List Char) :
    CrawlSt × Option Page :=
  ({ st with fetched := st.fetched ++ [url] }, env.pages url)

/-- Model of Spider.get_all_images: fetch the page, returning the empty
list when the fetch fails, otherwise fold the classification step over
the img src values. -/
def get_all_images (env : Env) (st : CrawlSt) (url : List Char) :
    CrawlSt × List (List Char) :=
  let gp := getPage env st url
  match gp.2 with
  | none => (gp.1, [])
  | some pg => (gp.1, pg.imgs.foldl (imgStep env url) [])

/-- Model of Spider.get_all_links: fetch the page, returning the empty
list when the fetch fails, otherwise fold the href step over the anchor
values. -/
def get_all_links (env : Env) (st : CrawlSt) (url base_url : List Char) :
    CrawlSt × List (List Char) :=
  let gp := getPage env st url
  match gp.2 with
  | none => (gp.1, [])
  | some pg => (gp.1, pg.anchors.foldl (processHref base_url) [])

/-- Fold of a crawl step over a list of links, the shape of the for loop
at the end of Spider.crawl. -/
def crawlAllWith (f : CrawlSt → List Char → CrawlSt) :
    CrawlSt → List (List Char) → CrawlSt
  | st, [] => st
  | st, l :: rest => crawlAllWith f (f st l) rest

/-- Model of Spider.crawl. The fuel argument only bounds the recursion
depth for Lean; crawlTop supplies max_depth + 1, which the depth guard
never lets the run exhaust, so the fuel-zero branch is unreachable from
crawlTop. Inside crawl, download_image is an effect on the filesystem
collaborator, recorded in the downloads log; its own definition is
modelled separately below. -/
def crawl (env : Env) : Nat → CrawlSt → List Char → Nat → Nat → CrawlSt
  | 0, st, _, _, _ => st
  | fuel + 1, st, url, depth, max_depth =>
    let normalized_url := normalize_url url
    if depth > max_depth ∨ normalized_url ∈ st.visited then st
    else
      let st1 : CrawlSt :=
        { st with
          visited := normalized_url :: st.visited,
          crawlLog := (normalized_url, depth) :: st.crawlLog }
      let gi := get_all_images env st1 normalized_url
      let st2 : CrawlSt := { gi.1 with downloads := gi.1.downloads ++ gi.2 }
      if depth < max_depth then
        let gl := get_all_links env st2 normalized_url normalized_url
        crawlAllWith
          (fun s link =>
            if is_valid_url link then crawl env fuel s link (depth + 1) max_depth
            else s)
          gl.1 gl.2
      else st2

/-- One crawl run from a fresh Spider state, as Spider.run starts it:
depth 0 and enough fuel for every depth the guard admits. -/
def crawlTop (env : Env) (url : List Char) (max_depth : Nat) : CrawlSt :=
  crawl env (max_depth + 1) initSt url 0 max_depth

/-- Model of posixpath.basename: the part after the last slash. -/
def basenamePosix (p : List Char) : List Char :=
  (p.reverse.takeWhile (fun c => !(c = '/'))).reverse

/-- Model of posixpath.splitext: split off the extension at the last dot
of the last path segment, unless every character before that dot in the
segment is itself a dot. -/
def splitext (p : List Char) : List Char × List Char :=
  let r := p.reverse
  let afterDot := r.takeWhile (fun c => !(c = '.') && !(c = '/'))
  match r.dropWhile (fun c => !(c = '.') && !(c = '/')) with
  | '.' :: beforeDot =>
    if (beforeDot.takeWhile (fun c => !(c = '/'))).any (fun c => !(c = '.')) then
      (beforeDot.reverse, '.' :: afterDot.reverse)
    else (p, [])
  | _ => (p, [])

/-- Model of posixpath.join for two components. -/
def pathJoin (a b : List Char) : List Char :=
  if List.isPrefixOf ['/'] b then b
  else if a = [] ∨ a.getLast? = some '/' then a ++ b
  else a ++ '/' :: b

/-- Outcome of one Spider.download_image call. fetchFailed is the early
return when get_page yields None; nameError models the NameError raised
by the expression int(time.time()) because the time module is never
imported, which the enclosing except catches after which no file is
written; written p means the body was streamed to path p; outOfFuel is
the fuel artifact of the while loop model and is unreachable with
adequate fuel. -/
inductive DlOutcome where
  | fetchFailed
  | nameError
  | written (path : List Char)
  | outOfFuel
deriving DecidableEq

/-- Model of the duplicate-handling while loop of Spider.download_image:
ex is the filesystem existence test; the candidate at each iteration is
rebuilt from the unchanged filename with the counter spliced in before
the extension. -/
def collisionLoop (ex : List Char → Bool) (download_path filename : List Char) :
    List Char → Nat → Nat → Option (List Char)
  | _, _, 0 => none
  | filepath, counter, fuel + 1 =>
    if ex filepath then
      let ne := splitext filename
      collisionLoop ex download_path filename
        (pathJoin download_path (ne.1 ++ '_' :: (Nat.repr counter).data ++ ne.2))
        (counter + 1) fuel
    else some filepath

/-- Model of Spider.download_image over the collaborators: fetch the
image, derive the filename from the last path segment, fall into the
NameError branch when it is blank, infer a missing extension from the
Content-Type, and resolve path collisions with the numbered suffix
loop. -/
def download_image (env : Env) (ex : List Char → Bool)
    (download_path img_url : List Char) (fuel : Nat) : DlOutcome :=
  match env.pages img_url with
  | none => DlOutcome.fetchFailed
  | some resp =>
    let filename := basenamePosix (urlparse img_url).path
    if stripChars filename = [] then DlOutcome.nameError
    else
      let filename :=
        if (splitext filename).2 = [] then
          match env.guessExt resp.contentType with
          | some ext => filename ++ ext
          | none => filename
        else filename
      let filepath := pathJoin download_path filename
      match collisionLoop ex download_path filename filepath 1 fuel with
      | some p => DlOutcome.written p
      | none => DlOutcome.outOfFuel

/-- Page with given anchors, no images, and an empty Content-Type. -/
def pageWith (ls : List (List Char)) : Page := ⟨ls, [], []⟩

/-- Page graph with the cycle A to B to A used by the dedup property. -/
def cycleEnv : Env :=
  ⟨fun u =>
    if u = chars "http://a.com/a" then some (pageWith [chars "http://a.com/b"])
    else if u = chars "http://a.com/b" then some (pageWith [chars "http://a.com/a"])
    else none,
   fun _ => none, fun _ => none⟩

/-- Linear page chain A to B to C to D used by the depth bound property. -/
def chainEnv : Env :=
  ⟨fun u =>
    if u = chars "http://a.com/a" then some (pageWith [chars "http://a.com/b"])
    else if u = chars "http://a.com/b" then some (pageWith [chars "http://a.com/c"])
    else if u = chars "http://a.com/c" then some (pageWith [chars "http://a.com/d"])
    else none,
   fun _ => none, fun _ => none⟩

/-- World in which every GET and HEAD fails. -/
def failEnv : Env := ⟨fun _ => none, fun _ => none, fun _ => none⟩

/-- Page whose only anchor is an empty href value. -/
def emptyHrefEnv : Env :=
  ⟨fun u =>
    if u = chars "http://a.com/x" then some (pageWith [[]]) else none,
   fun _ => none, fun _ => none⟩

/-- HEAD collaborator that always raises. -/
def noHead : List Char → Option HeadResp := fun _ => none

/-- World whose every GET yields a body with Content-Type image/jpeg,
used by the download examples. -/
def photoEnv : Env :=
  ⟨fun _ => some ⟨[], [], chars "image/jpeg"⟩, fun _ => none, fun _ => none⟩

/-- Filesystem with no files. -/
def exEmpty : List Char → Bool := fun _ => false

/-- Filesystem holding exactly the file ./data/photo.jpg. -/
def exPhoto : List Char → Bool := fun p => p = chars "./data/photo.jpg"

/-- Invariant tying the crawl log to the visited set: no URL is logged
twice, and every logged URL is in the visited set. -/
def GoodSt (st : CrawlSt) : Prop :=
  (st.crawlLog.map Prod.fst).Nodup ∧ ∀ e ∈ st.crawlLog, e.1 ∈ st.visited

/-- Invariant that every logged crawl happened at depth at most m. -/
def DepthOk (m : Nat) (st : CrawlSt) : Prop :=
  ∀ e ∈ st.crawlLog, e.2 ≤ m

/-- Text remaining after the scheme and netloc extraction steps of
urlsplit; the path, query, and fragment are carved from it. -/
def restAfterNetloc (url default_scheme : List Char) : List Char :=
  (splitNetloc (splitSchemeD url default_scheme).2).2

/-- Value of normalize_url expressed over the urlsplit record, with the
params step of urlparse inlined; used to transport equalities of split
components to equalities of normalized URLs. -/
def normFromSplit (s : UrlParts) : List Char :=
  let path :=
    if s.scheme ∈ usesParams ∧ ';' ∈ s.path then (splitparams s.path).1
    else s.path
  s.scheme ++ ':' :: '/' :: '/' :: (s.netloc ++ rstripSlash path)

theorem splitOnFirst_not_mem {sep : Char} {l : List Char} (h : sep ∉ l) :
    splitOnFirst sep l = (l, none) := by
  induction l with
  | nil => rfl
  | cons c cs ih =>
    have hc : ¬ c = sep := fun he => h (he ▸ List.mem_cons_self c cs)
    have hcs : sep ∉ cs := fun hm => h (List.mem_cons_of_mem c hm)
    simp [splitOnFirst, hc, ih hcs]

theorem splitOnFirst_append {sep : Char} {a : List Char} (b : List Char)
    (h : sep ∉ a) : splitOnFirst sep (a ++ sep :: b) = (a, some b) := by
  induction a with
  | nil => simp [splitOnFirst]
  | cons c cs ih =>
    have hc : ¬ c = sep := fun he => h (he ▸ List.mem_cons_self c cs)
    have hcs : sep ∉ cs := fun hm => h (List.mem_cons_of_mem c hm)
    simp [splitOnFirst, hc, ih hcs]

theorem splitOnFirst_eq_some {sep : Char} {l a r : List Char}
    (h : splitOnFirst sep l = (a, some r)) : l = a ++ sep :: r ∧ sep ∉ a := by
  induction l generalizing a r with
  | nil => simp [splitOnFirst] at h
  | cons c cs ih =>
    by_cases hc : c = sep
    · rw [splitOnFirst, if_pos hc] at h
      injection h with h1 h2
      injection h2 with h2
      subst h1
      subst h2
      subst hc
      exact ⟨rfl, by simp⟩
    · rw [splitOnFirst, if_neg hc] at h
      injection h with h1 h2
      have hcs : splitOnFirst sep cs = ((splitOnFirst sep cs).1, some r) := by
        rw [← h2]
      rcases ih hcs with ⟨hl, hna⟩
      subst h1
      refine ⟨by rw [List.cons_append, ← hl], ?_⟩
      intro hm
      rcases List.mem_cons.mp hm with hcc | hcc
      · exact hc hcc.symm
      · exact hna hcc

theorem splitOnFirst_found_append {sep : Char} {l a r : List Char} (t : List Char)
    (h : splitOnFirst sep l = (a, some r)) :
    splitOnFirst sep (l ++ t) = (a, some (r ++ t)) := by
  rcases splitOnFirst_eq_some h with ⟨hl, hna⟩
  rw [hl, List.append_assoc, List.cons_append]
  exact splitOnFirst_append (r ++ t) hna

theorem mem_splitOnFirst_fst {sep c : Char} {l : List Char}
    (h : c ∈ (splitOnFirst sep l).1) : c ∈ l := by
  induction l with
  | nil => simp [splitOnFirst] at h
  | cons x xs ih =>
    by_cases hx : x = sep
    · simp [splitOnFirst, hx] at h
    · simp [splitOnFirst, hx] at h
      rcases h with h | h
      · exact h ▸ List.mem_cons_self x xs
      · exact List.mem_cons_of_mem x (ih h)

theorem splitOnFirst_fst_not_sep {sep : Char} {l : List Char} :
    sep ∉ (splitOnFirst sep l).1 := by
  induction l with
  | nil => simp [splitOnFirst]
  | cons x xs ih =>
    by_cases hx : x = sep
    · simp [splitOnFirst, hx]
    · simp [splitOnFirst, hx]
      exact ⟨fun he => hx he.symm, ih⟩

theorem mem_splitOnFirst_snd {sep c : Char} {l r : List Char}
    (h : (splitOnFirst sep l).2 = some r) (hc : c ∈ r) : c ∈ l := by
  induction l generalizing r with
  | nil => simp [splitOnFirst] at h
  | cons x xs ih =>
    by_cases hx : x = sep
    · simp [splitOnFirst, hx] at h
      exact List.mem_cons_of_mem x (h ▸ hc)
    · simp [splitOnFirst, hx] at h
      exact List.mem_cons_of_mem x (ih h hc)

theorem rstripSlash_idem (l : List Char) :
    rstripSlash (rstripSlash l) = rstripSlash l := by
  induction l with
  | nil => rfl
  | cons c cs ih =>
    by_cases h : c = '/' ∧ rstripSlash cs = []
    · simp [rstripSlash, h]
    · rw [rstripSlash, if_neg h]
      rw [rstripSlash, ih, if_neg]
      intro hcon
      exact h ⟨hcon.1, hcon.2⟩

theorem mem_rstripSlash {c : Char} {l : List Char} (h : c ∈ rstripSlash l) :
    c ∈ l := by
  induction l with
  | nil => simp [rstripSlash] at h
  | cons x xs ih =>
    by_cases hx : x = '/' ∧ rstripSlash xs = []
    · rw [rstripSlash, if_pos hx] at h
      simp at h
    · rw [rstripSlash, if_neg hx] at h
      rcases List.mem_cons.mp h with h | h
      · exact h ▸ List.mem_cons_self x xs
      · exact List.mem_cons_of_mem x (ih h)

theorem rstripSlash_cons {c : Char} {l r : List Char}
    (h : rstripSlash l = c :: r) : ∃ t, l = c :: t := by
  cases l with
  | nil => simp [rstripSlash] at h
  | cons x xs =>
    by_cases hx : x = '/' ∧ rstripSlash xs = []
    · rw [rstripSlash, if_pos hx] at h
      exact absurd h (by simp)
    · rw [rstripSlash, if_neg hx] at h
      injection h with h1 h2
      exact ⟨xs, by rw [h1]⟩

theorem rstripSlash_append_slash (l : List Char) :
    rstripSlash (l ++ ['/']) = rstripSlash l := by
  induction l with
  | nil => rfl
  | cons c cs ih =>
    rw [List.cons_append, rstripSlash, ih, rstripSlash]

theorem takeWhile_append_all {q : Char → Bool} {a : List Char} (b : List Char)
    (h : ∀ c ∈ a, q c = true) :
    List.takeWhile q (a ++ b) = a ++ List.takeWhile q b := by
  induction a with
  | nil => simp
  | cons x xs ih =>
    have hx : q x = true := h x (List.mem_cons_self x xs)
    simp [List.takeWhile, hx]
    exact ih (fun c hc => h c (List.mem_cons_of_mem x hc))

theorem dropWhile_append_all {q : Char → Bool} {a : List Char} (b : List Char)
    (h : ∀ c ∈ a, q c = true) :
    List.dropWhile q (a ++ b) = List.dropWhile q b := by
  induction a with
  | nil => simp
  | cons x xs ih =>
    have hx : q x = true := h x (List.mem_cons_self x xs)
    simp [List.dropWhile, hx]
    exact ih (fun c hc => h c (List.mem_cons_of_mem x hc))

theorem takeWhile_append_stop {q : Char → Bool} {l : List Char} (t : List Char)
    (h : List.dropWhile q l ≠ []) :
    List.takeWhile q (l ++ t) = List.takeWhile q l ∧
      List.dropWhile q (l ++ t) = List.dropWhile q l ++ t := by
  induction l with
  | nil => simp at h
  | cons x xs ih =>
    by_cases hx : q x
    · simp only [List.dropWhile_cons, hx, if_true] at h
      rcases ih h with ⟨h1, h2⟩
      constructor
      · simp [List.takeWhile, hx, h1]
      · simp [List.dropWhile, hx, h2]
    · have hx2 : q x = false := Bool.not_eq_true _ ▸ hx
      constructor
      · simp [List.takeWhile, hx2]
      · simp [List.dropWhile, hx2]

theorem urlsplitD_decomp (url ds : List Char) :
    urlsplitD url ds =
      ⟨(splitSchemeD url ds).1,
       (splitNetloc (splitSchemeD url ds).2).1,
       (splitQuery (splitFrag (restAfterNetloc url ds)).1).1,
       (splitQuery (splitFrag (restAfterNetloc url ds)).1).2,
       (splitFrag (restAfterNetloc url ds)).2⟩ := rfl

theorem urlparse_scheme_eq (u : List Char) :
    (urlparse u).scheme = (urlsplitD u []).scheme := by
  simp only [urlparse]
  split <;> rfl

theorem urlparse_netloc_eq (u : List Char) :
    (urlparse u).netloc = (urlsplitD u []).netloc := by
  simp only [urlparse]
  split <;> rfl

theorem normalize_eq_normFromSplit (u : List Char) :
    normalize_url u = normFromSplit (urlsplitD u []) := by
  simp only [normalize_url, urlparse, normFromSplit]
  split <;> rfl

theorem normFromSplit_congr {s t : UrlParts} (h1 : s.scheme = t.scheme)
    (h2 : s.netloc = t.netloc) (h3 : s.path = t.path) :
    normFromSplit s = normFromSplit t := by
  unfold normFromSplit
  rw [h1, h2, h3]

theorem mem_splitNetloc_fst {rest : List Char} {c : Char}
    (h : c ∈ (splitNetloc rest).1) : netlocEnd c = false := by
  unfold splitNetloc at h
  split at h
  · have := List.mem_takeWhile_imp h
    simpa using this
  · simp at h

theorem mem_netloc_urlsplitD {u ds : List Char} {c : Char}
    (h : c ∈ (urlsplitD u ds).netloc) : netlocEnd c = false := by
  rw [urlsplitD_decomp] at h
  exact mem_splitNetloc_fst h

theorem mem_splitNetloc_snd {rest : List Char} {c : Char}
    (h : c ∈ (splitNetloc rest).2) : c ∈ rest := by
  unfold splitNetloc at h
  split at h
  · exact List.mem_cons_of_mem _ (List.mem_cons_of_mem _
      ((List.dropWhile_sublist _).mem h))
  · exact h

theorem mem_splitSchemeD_snd {u ds : List Char} {c : Char}
    (h : c ∈ (splitSchemeD u ds).2) : c ∈ u := by
  unfold splitSchemeD at h
  split at h
  · rename_i pre r heq
    split at h
    · exact mem_splitOnFirst_snd (by rw [heq]) h
    · exact h
  · exact h

theorem mem_splitFrag_fst {l : List Char} {c : Char}
    (h : c ∈ (splitFrag l).1) : c ∈ l :=
  mem_splitOnFirst_fst h

theorem mem_splitQuery_fst {l : List Char} {c : Char}
    (h : c ∈ (splitQuery l).1) : c ∈ l :=
  mem_splitOnFirst_fst h

theorem splitFrag_fst_no_hash (l : List Char) : '#' ∉ (splitFrag l).1 :=
  splitOnFirst_fst_not_sep

theorem splitQuery_fst_no_query (l : List Char) : '?' ∉ (splitQuery l).1 :=
  splitOnFirst_fst_not_sep

theorem urlsplitD_path_no_hash (u ds : List Char) :
    '#' ∉ (urlsplitD u ds).path ∧ '?' ∉ (urlsplitD u ds).path := by
  rw [urlsplitD_decomp]
  constructor
  · intro h
    exact splitFrag_fst_no_hash _ (mem_splitQuery_fst h)
  · intro h
    exact splitQuery_fst_no_query _ h

theorem mem_path_urlsplitD {u ds : List Char} {c : Char}
    (h : c ∈ (urlsplitD u ds).path) : c ∈ u := by
  rw [urlsplitD_decomp] at h
  exact mem_splitSchemeD_snd
    (mem_splitNetloc_snd (mem_splitFrag_fst (mem_splitQuery_fst h)))

theorem pathOf_nil : (splitQuery (splitFrag []).1).1 = [] := rfl

theorem pathOf_hash (t : List Char) :
    (splitQuery (splitFrag ('#' :: t)).1).1 = [] := rfl

theorem pathOf_query (t : List Char) :
    (splitQuery (splitFrag ('?' :: t)).1).1 = [] := by
  unfold splitFrag splitQuery
  simp [splitOnFirst]

theorem pathOf_slash (t : List Char) :
    ∃ r, (splitQuery (splitFrag ('/' :: t)).1).1 = '/' :: r := by
  unfold splitFrag splitQuery
  simp [splitOnFirst]

theorem splitNetloc_fst_ne_nil {rest : List Char}
    (h : (splitNetloc rest).1 ≠ []) : ∃ r2, rest = '/' :: '/' :: r2 := by
  unfold splitNetloc at h
  split at h
  · exact ⟨_, rfl⟩
  · simp at h

theorem dropWhile_cons_head {q : Char → Bool} {l : List Char} {c : Char}
    {t : List Char} (h : List.dropWhile q l = c :: t) : q c = false := by
  induction l with
  | nil => simp at h
  | cons x xs ih =>
    rw [List.dropWhile_cons] at h
    by_cases hx : q x
    · rw [if_pos hx] at h
      exact ih h
    · rw [if_neg hx] at h
      injection h with h1 h2
      subst h1
      simpa using hx

theorem urlsplitD_path_slash {u ds : List Char}
    (h : (urlsplitD u ds).netloc ≠ []) :
    (urlsplitD u ds).path = [] ∨ ∃ t, (urlsplitD u ds).path = '/' :: t := by
  have hnet : (splitNetloc (splitSchemeD u ds).2).1 ≠ [] := by
    rw [urlsplitD_decomp] at h
    exact h
  rcases splitNetloc_fst_ne_nil hnet with ⟨r2, hr⟩
  have hrest : restAfterNetloc u ds =
      List.dropWhile (fun c => !(netlocEnd c)) r2 := by
    unfold restAfterNetloc
    rw [hr]
    rfl
  rw [urlsplitD_decomp]
  rcases hd : List.dropWhile (fun c => !(netlocEnd c)) r2 with _ | ⟨c, t⟩
  · left
    show (splitQuery (splitFrag (restAfterNetloc u ds)).1).1 = []
    rw [hrest, hd]
    rfl
  · have hstop : netlocEnd c = true := by
      have hh := dropWhile_cons_head hd
      simpa using hh
    have hcc : c = '/' ∨ c = '?' ∨ c = '#' := by
      revert hstop
      unfold netlocEnd
      intro hs
      simp at hs
      tauto
    rcases hcc with hc | hc | hc
    · subst hc
      rcases pathOf_slash t with ⟨r, hrr⟩
      right
      refine ⟨r, ?_⟩
      show (splitQuery (splitFrag (restAfterNetloc u ds)).1).1 = _
      rw [hrest, hd]
      exact hrr
    · subst hc
      left
      show (splitQuery (splitFrag (restAfterNetloc u ds)).1).1 = []
      rw [hrest, hd]
      exact pathOf_query t
    · subst hc
      left
      show (splitQuery (splitFrag (restAfterNetloc u ds)).1).1 = []
      rw [hrest, hd]
      exact pathOf_hash t

theorem splitFrag_no_hash {p : List Char} (hp : '#' ∉ p) :
    splitFrag p = (p, []) := by
  unfold splitFrag
  rw [splitOnFirst_not_mem hp]
  rfl

theorem splitQuery_no_query {p : List Char} (hp : '?' ∉ p) :
    splitQuery p = (p, []) := by
  unfold splitQuery
  rw [splitOnFirst_not_mem hp]
  rfl

theorem splitNetloc_exact {n p : List Char}
    (hn : ∀ c ∈ n, netlocEnd c = false)
    (hp : p = [] ∨ ∃ t, p = '/' :: t) :
    splitNetloc ('/' :: '/' :: (n ++ p)) = (n, p) := by
  have hq : ∀ c ∈ n, (fun c => !(netlocEnd c)) c = true := by
    intro c hc
    simp [hn c hc]
  show (List.takeWhile (fun c => !(netlocEnd c)) (n ++ p),
        List.dropWhile (fun c => !(netlocEnd c)) (n ++ p)) = (n, p)
  rcases hp with he | ⟨t, he⟩
  · subst he
    rw [List.append_nil]
    rw [List.takeWhile_eq_self_iff.mpr hq, List.dropWhile_eq_nil_iff.mpr hq]
  · subst he
    rw [takeWhile_append_all _ hq, dropWhile_append_all _ hq]
    simp [List.takeWhile, List.dropWhile, netlocEnd]

theorem parse_reassembled {sch n p : List Char}
    (hv : validSchemePre sch = true) (hlow : lowerStr sch = sch)
    (hc : ':' ∉ sch)
    (hn : ∀ c ∈ n, netlocEnd c = false)
    (hp1 : '#' ∉ p) (hp2 : '?' ∉ p)
    (hp3 : p = [] ∨ ∃ t, p = '/' :: t) :
    urlsplitD (sch ++ ':' :: '/' :: '/' :: (n ++ p)) [] = ⟨sch, n, p, [], []⟩ := by
  have hsch : splitSchemeD (sch ++ ':' :: '/' :: '/' :: (n ++ p)) [] =
      (sch, '/' :: '/' :: (n ++ p)) := by
    unfold splitSchemeD
    rw [splitOnFirst_append _ hc]
    simp [hv, hlow]
  have hnet := splitNetloc_exact hn hp3
  have hfr := splitFrag_no_hash hp1
  have hqu := splitQuery_no_query hp2
  rw [urlsplitD_decomp]
  unfold restAfterNetloc
  rw [hsch, hnet, hfr, hqu]

theorem scheme_found {u : List Char} (h : (urlsplitD u []).scheme ≠ []) :
    ∃ pre r, splitOnFirst ':' u = (pre, some r) ∧ validSchemePre pre = true ∧
      splitSchemeD u [] = (lowerStr pre, r) := by
  rw [urlsplitD_decomp] at h
  unfold splitSchemeD at h ⊢
  split at h
  · rename_i pre r heq
    split at h
    · rename_i hv
      refine ⟨pre, r, heq, hv, ?_⟩
      simp [hv]
    · simp at h
  · simp at h

theorem is_valid_elim {u : List Char} (hv : is_valid_url u = true) :
    ((urlsplitD u []).scheme = chars "http" ∨
      (urlsplitD u []).scheme = chars "https") ∧
      (urlsplitD u []).netloc ≠ [] := by
  unfold is_valid_url at hv
  rw [decide_eq_true_eq] at hv
  rwa [urlparse_scheme_eq, urlparse_netloc_eq] at hv

theorem urlparse_of_no_semicolon {u : List Char}
    (h : ';' ∉ (urlsplitD u []).path) : urlparse u = urlsplitD u [] := by
  show (if (urlsplitD u []).scheme ∈ usesParams ∧ ';' ∈ (urlsplitD u []).path
        then { urlsplitD u [] with path := (splitparams (urlsplitD u []).path).1 }
        else urlsplitD u []) = urlsplitD u []
  exact if_neg (fun hcon => h hcon.2)

theorem valid_scheme_facts {u : List Char} (hv : is_valid_url u = true) :
    validSchemePre (urlsplitD u []).scheme = true ∧
      lowerStr (urlsplitD u []).scheme = (urlsplitD u []).scheme ∧
      ':' ∉ (urlsplitD u []).scheme := by
  rcases (is_valid_elim hv).1 with h | h <;> rw [h]
  · exact ⟨by decide, by decide, by decide⟩
  · exact ⟨by decide, by decide, by decide⟩

/-- C8: the claim that normalize is idempotent on every valid URL fails
on the code: for a valid URL whose last path segment holds a semicolon
hidden by a trailing slash, the first normalization strips the slash and
the second parse then splits the semicolon off as params, so the two
results differ. -/
theorem C8_counterexample :
    is_valid_url (chars "http://a.com/a;b/") = true ∧
    normalize_url (normalize_url (chars "http://a.com/a;b/")) ≠
      normalize_url (chars "http://a.com/a;b/") := by
  constructor
  · decide
  · decide

/-- C8 (amended): normalization is idempotent for every valid URL whose
text contains no semicolon; the semicolon-params splitting of urlparse is
the only obstruction, as the counterexample shows. -/
theorem C8_normalize_idempotent_amended (u : List Char)
    (hv : is_valid_url u = true) (hs : ';' ∉ u) :
    normalize_url (normalize_url u) = normalize_url u := by
  obtain ⟨hfacts1, hfacts2, hfacts3⟩ := valid_scheme_facts hv
  have hnet : (urlsplitD u []).netloc ≠ [] := (is_valid_elim hv).2
  have hpsub : ';' ∉ (urlsplitD u []).path := fun hm => hs (mem_path_urlsplitD hm)
  have hparse : urlparse u = urlsplitD u [] := urlparse_of_no_semicolon hpsub
  have hnorm : normalize_url u = (urlsplitD u []).scheme ++ ':' :: '/' :: '/' ::
      ((urlsplitD u []).netloc ++ rstripSlash (urlsplitD u []).path) := by
    unfold normalize_url
    rw [hparse]
  have hn : ∀ c ∈ (urlsplitD u []).netloc, netlocEnd c = false :=
    fun _ hc => mem_netloc_urlsplitD hc
  have hhash : '#' ∉ rstripSlash (urlsplitD u []).path :=
    fun hm => (urlsplitD_path_no_hash u []).1 (mem_rstripSlash hm)
  have hqm : '?' ∉ rstripSlash (urlsplitD u []).path :=
    fun hm => (urlsplitD_path_no_hash u []).2 (mem_rstripSlash hm)
  have hsemi : ';' ∉ rstripSlash (urlsplitD u []).path :=
    fun hm => hpsub (mem_rstripSlash hm)
  have hslash : rstripSlash (urlsplitD u []).path = [] ∨
      ∃ t, rstripSlash (urlsplitD u []).path = '/' :: t := by
    rcases urlsplitD_path_slash hnet with hp | ⟨t, hp⟩
    · left
      rw [hp]
      rfl
    · rcases hcase : rstripSlash (urlsplitD u []).path with _ | ⟨c, t2⟩
      · left
        rfl
      · right
        obtain ⟨t3, h3⟩ := rstripSlash_cons hcase
        rw [hp] at h3
        injection h3 with h4 h5
        subst h4
        exact ⟨t2, rfl⟩
  have hre : urlsplitD (normalize_url u) [] =
      ⟨(urlsplitD u []).scheme, (urlsplitD u []).netloc,
        rstripSlash (urlsplitD u []).path, [], []⟩ := by
    rw [hnorm]
    exact parse_reassembled hfacts1 hfacts2 hfacts3 hn hhash hqm hslash
  rw [normalize_eq_normFromSplit (normalize_url u), hre, hnorm]
  unfold normFromSplit
  rw [if_neg (fun hcon => hsemi hcon.2)]
  dsimp only
  rw [rstripSlash_idem]

/-- C8 witness: a concrete valid semicolon-free URL on which the amended
idempotence theorem applies. -/
theorem C8_witness :
    (is_valid_url (chars "http://a.com/x/") = true ∧
      ';' ∉ chars "http://a.com/x/") ∧
    normalize_url (normalize_url (chars "http://a.com/x/")) =
      normalize_url (chars "http://a.com/x/") :=
  ⟨⟨by decide, by decide⟩,
    C8_normalize_idempotent_amended (chars "http://a.com/x/") (by decide) (by decide)⟩

theorem splitOnFirst_mem {sep : Char} {l : List Char} (h : sep ∈ l) :
    ∃ a r, splitOnFirst sep l = (a, some r) := by
  induction l with
  | nil => simp at h
  | cons c cs ih =>
    by_cases hc : c = sep
    · exact ⟨[], cs, by rw [splitOnFirst, if_pos hc]⟩
    · rcases List.mem_cons.mp h with he | hm
      · exact absurd he.symm hc
      · obtain ⟨a, r, har⟩ := ih hm
        refine ⟨c :: a, r, ?_⟩
        rw [splitOnFirst, if_neg hc, har]

theorem splitNetloc_append (r2 : List Char) {t : List Char}
    (h1 : List.takeWhile (fun c => !(netlocEnd c)) t = [])
    (h2 : List.dropWhile (fun c => !(netlocEnd c)) t = t) :
    splitNetloc ('/' :: '/' :: (r2 ++ t)) =
      ((splitNetloc ('/' :: '/' :: r2)).1,
        (splitNetloc ('/' :: '/' :: r2)).2 ++ t) := by
  show (List.takeWhile (fun c => !(netlocEnd c)) (r2 ++ t),
        List.dropWhile (fun c => !(netlocEnd c)) (r2 ++ t)) =
      (List.takeWhile (fun c => !(netlocEnd c)) r2,
        List.dropWhile (fun c => !(netlocEnd c)) r2 ++ t)
  by_cases hd : List.dropWhile (fun c => !(netlocEnd c)) r2 = []
  · have hall : ∀ c ∈ r2, (fun c => !(netlocEnd c)) c = true :=
      List.dropWhile_eq_nil_iff.mp hd
    rw [takeWhile_append_all _ hall, dropWhile_append_all _ hall, h1, h2,
      List.takeWhile_eq_self_iff.mpr hall, hd]
    simp
  · obtain ⟨e1, e2⟩ := takeWhile_append_stop t hd
    rw [e1, e2]

theorem urlsplitD_append_valid {u t : List Char} (hv : is_valid_url u = true)
    (h1 : List.takeWhile (fun c => !(netlocEnd c)) t = [])
    (h2 : List.dropWhile (fun c => !(netlocEnd c)) t = t) :
    (urlsplitD (u ++ t) []).scheme = (urlsplitD u []).scheme ∧
    (urlsplitD (u ++ t) []).netloc = (urlsplitD u []).netloc ∧
    restAfterNetloc (u ++ t) [] = restAfterNetloc u [] ++ t := by
  obtain ⟨hsome, hnet⟩ := is_valid_elim hv
  have hschne : (urlsplitD u []).scheme ≠ [] := by
    rcases hsome with h | h <;> rw [h] <;> simp [chars]
  obtain ⟨pre, r, hsof, hvp, hsd⟩ := scheme_found hschne
  have hr2 : ∃ r2, r = '/' :: '/' :: r2 := by
    apply splitNetloc_fst_ne_nil
    rw [urlsplitD_decomp] at hnet
    rw [hsd] at hnet
    exact hnet
  obtain ⟨r2, hr⟩ := hr2
  subst hr
  have hsd2 : splitSchemeD (u ++ t) [] = (lowerStr pre, '/' :: '/' :: (r2 ++ t)) := by
    unfold splitSchemeD
    rw [splitOnFirst_found_append t hsof]
    simp [hvp]
  have hnl := splitNetloc_append r2 h1 h2
  refine ⟨?_, ?_, ?_⟩
  · rw [urlsplitD_decomp, urlsplitD_decomp, hsd2, hsd]
  · rw [urlsplitD_decomp, urlsplitD_decomp, hsd2, hsd]
    show (splitNetloc ('/' :: '/' :: (r2 ++ t))).1 =
      (splitNetloc ('/' :: '/' :: r2)).1
    rw [hnl]
  · unfold restAfterNetloc
    rw [hsd2, hsd]
    show (splitNetloc ('/' :: '/' :: (r2 ++ t))).2 =
      (splitNetloc ('/' :: '/' :: r2)).2 ++ t
    rw [hnl]

theorem pathOf_append_hash (rest2 f : List Char) :
    (splitQuery (splitFrag (rest2 ++ '#' :: f)).1).1 =
      (splitQuery (splitFrag rest2).1).1 := by
  by_cases hm : '#' ∈ rest2
  · obtain ⟨a, r, har⟩ := splitOnFirst_mem hm
    have h2 := splitOnFirst_found_append ('#' :: f) har
    unfold splitFrag
    rw [har, h2]
  · have h1 := splitOnFirst_not_mem hm
    have h2 := splitOnFirst_append f hm
    unfold splitFrag
    rw [h1, h2]

theorem rstrip_pathOf_append_slash (rest2 : List Char) :
    rstripSlash (splitQuery (splitFrag (rest2 ++ ['/'])).1).1 =
      rstripSlash (splitQuery (splitFrag rest2).1).1 := by
  by_cases hm : '#' ∈ rest2
  · obtain ⟨a, r, har⟩ := splitOnFirst_mem hm
    have h2 := splitOnFirst_found_append ['/'] har
    unfold splitFrag
    rw [har, h2]
  · have h1 := splitOnFirst_not_mem hm
    have hm2 : '#' ∉ rest2 ++ ['/'] := by
      intro hx
      rcases List.mem_append.mp hx with hx | hx
      · exact hm hx
      · simp at hx
    have h2 := splitOnFirst_not_mem hm2
    unfold splitFrag
    rw [h1, h2]
    dsimp only
    by_cases hq : '?' ∈ rest2
    · obtain ⟨a, r, har⟩ := splitOnFirst_mem hq
      have h3 := splitOnFirst_found_append ['/'] har
      unfold splitQuery
      rw [har, h3]
    · have h3 := splitOnFirst_not_mem hq
      have hq2 : '?' ∉ rest2 ++ ['/'] := by
        intro hx
        rcases List.mem_append.mp hx with hx | hx
        · exact hq hx
        · simp at hx
      have h4 := splitOnFirst_not_mem hq2
      unfold splitQuery
      rw [h3, h4]
      dsimp only
      exact rstripSlash_append_slash rest2

theorem normalize_append_fragment (u f : List Char)
    (hv : is_valid_url u = true) :
    normalize_url (u ++ '#' :: f) = normalize_url u := by
  have h1 : List.takeWhile (fun c => !(netlocEnd c)) ('#' :: f) = [] := by
    simp [List.takeWhile_cons, netlocEnd]
  have h2 : List.dropWhile (fun c => !(netlocEnd c)) ('#' :: f) = '#' :: f := by
    simp [List.dropWhile_cons, netlocEnd]
  obtain ⟨e1, e2, e3⟩ := urlsplitD_append_valid hv h1 h2
  have hpath : (urlsplitD (u ++ '#' :: f) []).path = (urlsplitD u []).path := by
    rw [urlsplitD_decomp, urlsplitD_decomp]
    show (splitQuery (splitFrag (restAfterNetloc (u ++ '#' :: f) [])).1).1 =
      (splitQuery (splitFrag (restAfterNetloc u [])).1).1
    rw [e3]
    exact pathOf_append_hash (restAfterNetloc u []) f
  rw [normalize_eq_normFromSplit, normalize_eq_normFromSplit]
  exact normFromSplit_congr e1 e2 hpath

theorem normalize_append_slash (u : List Char)
    (hv : is_valid_url u = true) (hs : ';' ∉ u) :
    normalize_url (u ++ ['/']) = normalize_url u := by
  have h1 : List.takeWhile (fun c => !(netlocEnd c)) ['/'] = [] := by
    simp [List.takeWhile_cons, netlocEnd]
  have h2 : List.dropWhile (fun c => !(netlocEnd c)) ['/'] = ['/'] := by
    simp [List.dropWhile_cons, netlocEnd]
  obtain ⟨e1, e2, e3⟩ := urlsplitD_append_valid hv h1 h2
  have hrst : rstripSlash (urlsplitD (u ++ ['/']) []).path =
      rstripSlash (urlsplitD u []).path := by
    rw [urlsplitD_decomp, urlsplitD_decomp]
    show rstripSlash (splitQuery (splitFrag (restAfterNetloc (u ++ ['/']) [])).1).1 =
      rstripSlash (splitQuery (splitFrag (restAfterNetloc u [])).1).1
    rw [e3]
    exact rstrip_pathOf_append_slash (restAfterNetloc u [])
  have hs1 : ';' ∉ (urlsplitD u []).path := fun hm => hs (mem_path_urlsplitD hm)
  have hs2 : ';' ∉ (urlsplitD (u ++ ['/']) []).path := by
    intro hm
    rcases List.mem_append.mp (mem_path_urlsplitD hm) with hx | hx
    · exact hs hx
    · simp at hx
  rw [normalize_eq_normFromSplit, normalize_eq_normFromSplit]
  unfold normFromSplit
  rw [if_neg (fun hc => hs2 hc.2), if_neg (fun hc => hs1 hc.2)]
  dsimp only
  rw [e1, e2, hrst]

/-- C9: the general sentence that two URLs differing only in a trailing
slash normalize to the same value fails on the code: with a semicolon in
the last path segment, the trailing slash decides whether urlparse splits
params, so the two normalizations differ. -/
theorem C9_counterexample :
    normalize_url (chars "http://a.com/a;b/") ≠
      normalize_url (chars "http://a.com/a;b") := by
  decide

/-- C9 (amended): appending a fragment to a valid URL never changes its
normalization, appending a trailing slash never changes it provided the
URL holds no semicolon, and the three URLs named by the claim all
normalize to the same value. -/
theorem C9_normalize_equivalence_amended :
    (∀ u f, is_valid_url u = true →
        normalize_url (u ++ '#' :: f) = normalize_url u) ∧
    (∀ u, is_valid_url u = true → ';' ∉ u →
        normalize_url (u ++ ['/']) = normalize_url u) ∧
    normalize_url (chars "http://a.com/x/") = normalize_url (chars "http://a.com/x") ∧
    normalize_url (chars "http://a.com/x#frag") = normalize_url (chars "http://a.com/x") := by
  refine ⟨?_, ?_, by decide, by decide⟩
  · intro u f hv
    exact normalize_append_fragment u f hv
  · intro u hv hs
    exact normalize_append_slash u hv hs

/-- C9 witness: the amended equivalences applied at a concrete valid
URL. -/
theorem C9_witness :
    is_valid_url (chars "http://a.com/x") = true ∧
    normalize_url (chars "http://a.com/x" ++ '#' :: chars "frag") =
      normalize_url (chars "http://a.com/x") ∧
    normalize_url (chars "http://a.com/x" ++ ['/']) =
      normalize_url (chars "http://a.com/x") :=
  ⟨by decide,
    C9_normalize_equivalence_amended.1 (chars "http://a.com/x") (chars "frag")
      (by decide),
    C9_normalize_equivalence_amended.2.1 (chars "http://a.com/x") (by decide)
      (by decide)⟩

theorem get_all_images_fst (env : Env) (st : CrawlSt) (u : List Char) :
    (get_all_images env st u).1 = { st with fetched := st.fetched ++ [u] } := by
  unfold get_all_images getPage
  cases env.pages u <;> rfl

theorem get_all_links_fst (env : Env) (st : CrawlSt) (u b : List Char) :
    (get_all_links env st u b).1 = { st with fetched := st.fetched ++ [u] } := by
  unfold get_all_links getPage
  cases env.pages u <;> rfl

theorem crawl_succ (env : Env) (fuel : Nat) (st : CrawlSt) (url : List Char)
    (depth max_depth : Nat) :
    crawl env (fuel + 1) st url depth max_depth =
      if depth > max_depth ∨ normalize_url url ∈ st.visited then st
      else
        let st1 : CrawlSt :=
          { st with
            visited := normalize_url url :: st.visited,
            crawlLog := (normalize_url url, depth) :: st.crawlLog }
        let gi := get_all_images env st1 (normalize_url url)
        let st2 : CrawlSt := { gi.1 with downloads := gi.1.downloads ++ gi.2 }
        if depth < max_depth then
          let gl := get_all_links env st2 (normalize_url url) (normalize_url url)
          crawlAllWith
            (fun s link =>
              if is_valid_url link then crawl env fuel s link (depth + 1) max_depth
              else s)
            gl.1 gl.2
        else st2 := rfl

theorem crawlTop_eq (env : Env) (url : List Char) (m : Nat) :
    crawlTop env url m = crawl env (m + 1) initSt url 0 m := rfl

theorem crawlTop_zero_visited (env : Env) (u : List Char) :
    (crawlTop env u 0).visited = [normalize_url u] := by
  rw [crawlTop_eq, crawl_succ]
  rw [if_neg (by simp [initSt])]
  dsimp only
  rw [if_neg (lt_irrefl 0)]
  rw [get_all_images_fst]
  rfl

theorem is_valid_colon (l : List Char) : is_valid_url (':' :: l) = false := by
  have hsch : (urlsplitD (':' :: l) []).scheme = [] := by
    rw [urlsplitD_decomp]
    show (splitSchemeD (':' :: l) []).1 = []
    unfold splitSchemeD
    rw [show splitOnFirst ':' (':' :: l) = ([], some l) from by
      rw [splitOnFirst]
      simp]
    simp [validSchemePre]
  simp only [is_valid_url, decide_eq_false_iff_not]
  intro hcon
  rcases hcon.1 with h | h
  · rw [urlparse_scheme_eq, hsch] at h
    exact absurd h.symm (by simp [chars])
  · rw [urlparse_scheme_eq, hsch] at h
    exact absurd h.symm (by simp [chars])

/-- C10: normalize performs no validation: any input parsing with empty
scheme and empty host is reassembled as the text :// followed by the
trailing-slash-stripped path, a value is_valid_url rejects; and crawl
normalizes and records the URL without ever checking its validity, as the
visited set of a crawl from such a seed shows. -/
theorem C10_no_validation (env : Env) (u : List Char)
    (h1 : (urlparse u).scheme = []) (h2 : (urlparse u).netloc = []) :
    normalize_url u = ':' :: '/' :: '/' :: rstripSlash (urlparse u).path ∧
    is_valid_url (normalize_url u) = false ∧
    (crawlTop env u 0).visited = [normalize_url u] := by
  have hn : normalize_url u =
      ':' :: '/' :: '/' :: rstripSlash (urlparse u).path := by
    show (urlparse u).scheme ++ ':' :: '/' :: '/' ::
      ((urlparse u).netloc ++ rstripSlash (urlparse u).path) = _
    rw [h1, h2]
    rfl
  refine ⟨hn, ?_, crawlTop_zero_visited env u⟩
  rw [hn]
  exact is_valid_colon _

/-- C10 witness: the bare relative path foo, which parses with empty
scheme and host, normalizes to ://foo, is rejected by is_valid_url, and
is still crawled. -/
theorem C10_witness :
    ((urlparse (chars "foo")).scheme = [] ∧ (urlparse (chars "foo")).netloc = []) ∧
    (normalize_url (chars "foo") =
        ':' :: '/' :: '/' :: rstripSlash (urlparse (chars "foo")).path ∧
      is_valid_url (normalize_url (chars "foo")) = false ∧
      (crawlTop failEnv (chars "foo") 0).visited = [normalize_url (chars "foo")]) :=
  ⟨⟨by decide, by decide⟩,
    C10_no_validation failEnv (chars "foo") (by decide) (by decide)⟩

theorem crawlAllWith_preserve (P : CrawlSt → Prop) (f : CrawlSt → List Char → CrawlSt)
    (hf : ∀ st l, P st → P (f st l)) :
    ∀ (ls : List (List Char)) (st : CrawlSt), P st → P (crawlAllWith f st ls) := by
  intro ls
  induction ls with
  | nil => intro st h; exact h
  | cons l rest ih => intro st h; exact ih (f st l) (hf st l h)

theorem goodSt_ext {a b : CrawlSt} (hv : a.visited = b.visited)
    (hl : a.crawlLog = b.crawlLog) (h : GoodSt a) : GoodSt b := by
  unfold GoodSt at *
  rw [← hv, ← hl]
  exact h

theorem depthOk_ext {m : Nat} {a b : CrawlSt} (hl : a.crawlLog = b.crawlLog)
    (h : DepthOk m a) : DepthOk m b := by
  unfold DepthOk at *
  rw [← hl]
  exact h

theorem crawl_preserves_good (env : Env) :
    ∀ (fuel : Nat) (st : CrawlSt) (url : List Char) (d m : Nat),
      GoodSt st → GoodSt (crawl env fuel st url d m) := by
  intro fuel
  induction fuel with
  | zero => intro st url d m h; exact h
  | succ n ih =>
    intro st url d m h
    rw [crawl_succ]
    by_cases hg : d > m ∨ normalize_url url ∈ st.visited
    · rw [if_pos hg]
      exact h
    · rw [if_neg hg]
      dsimp only
      have hmem : normalize_url url ∉ st.visited := fun hm => hg (Or.inr hm)
      have h1 : GoodSt
          { st with visited := normalize_url url :: st.visited,
                    crawlLog := (normalize_url url, d) :: st.crawlLog } := by
        obtain ⟨hnd, hsub⟩ := h
        constructor
        · show (((normalize_url url, d) :: st.crawlLog).map Prod.fst).Nodup
          rw [List.map_cons]
          refine List.Nodup.cons ?_ hnd
          intro hmm
          obtain ⟨e, he, hee⟩ := List.mem_map.mp hmm
          apply hmem
          have hv2 := hsub e he
          rw [hee] at hv2
          exact hv2
        · intro e he
          rcases List.mem_cons.mp he with he1 | he1
          · subst he1
            exact List.mem_cons_self _ _
          · exact List.mem_cons_of_mem _ (hsub e he1)
      have h2 : GoodSt
          { (get_all_images env
              { st with visited := normalize_url url :: st.visited,
                        crawlLog := (normalize_url url, d) :: st.crawlLog }
              (normalize_url url)).1 with
            downloads := (get_all_images env
              { st with visited := normalize_url url :: st.visited,
                        crawlLog := (normalize_url url, d) :: st.crawlLog }
              (normalize_url url)).1.downloads ++ (get_all_images env
              { st with visited := normalize_url url :: st.visited,
                        crawlLog := (normalize_url url, d) :: st.crawlLog }
              (normalize_url url)).2 } := by
        refine goodSt_ext ?_ ?_ h1
        · rw [get_all_images_fst]
        · rw [get_all_images_fst]
      by_cases hd : d < m
      · rw [if_pos hd]
        refine crawlAllWith_preserve GoodSt _ ?_ _ _ ?_
        · intro s l hs
          by_cases hv : is_valid_url l = true
          · rw [if_pos hv]
            exact ih s l (d + 1) m hs
          · rw [if_neg hv]
            exact hs
        · refine goodSt_ext ?_ ?_ h2
          · rw [get_all_links_fst]
          · rw [get_all_links_fst]
      · rw [if_neg hd]
        exact h2

theorem crawl_preserves_depth (env : Env) (m : Nat) :
    ∀ (fuel : Nat) (st : CrawlSt) (url : List Char) (d : Nat),
      DepthOk m st → DepthOk m (crawl env fuel st url d m) := by
  intro fuel
  induction fuel with
  | zero => intro st url d h; exact h
  | succ n ih =>
    intro st url d h
    rw [crawl_succ]
    by_cases hg : d > m ∨ normalize_url url ∈ st.visited
    · rw [if_pos hg]
      exact h
    · rw [if_neg hg]
      dsimp only
      have hdm : d ≤ m := Nat.le_of_not_lt (fun hx => hg (Or.inl hx))
      have h1 : DepthOk m
          { st with visited := normalize_url url :: st.visited,
                    crawlLog := (normalize_url url, d) :: st.crawlLog } := by
        intro e he
        rcases List.mem_cons.mp he with he1 | he1
        · subst he1
          exact hdm
        · exact h e he1
      have h2 : DepthOk m
          { (get_all_images env
              { st with visited := normalize_url url :: st.visited,
                        crawlLog := (normalize_url url, d) :: st.crawlLog }
              (normalize_url url)).1 with
            downloads := (get_all_images env
              { st with visited := normalize_url url :: st.visited,
                        crawlLog := (normalize_url url, d) :: st.crawlLog }
              (normalize_url url)).1.downloads ++ (get_all_images env
              { st with visited := normalize_url url :: st.visited,
                        crawlLog := (normalize_url url, d) :: st.crawlLog }
              (normalize_url url)).2 } := by
        refine depthOk_ext ?_ h1
        rw [get_all_images_fst]
      by_cases hd : d < m
      · rw [if_pos hd]
        refine crawlAllWith_preserve (DepthOk m) _ ?_ _ _ ?_
        · intro s l hs
          by_cases hv : is_valid_url l = true
          · rw [if_pos hv]
            exact ih s l (d + 1) hs
          · rw [if_neg hv]
            exact hs
        · refine depthOk_ext ?_ h2
          rw [get_all_links_fst]
      · rw [if_neg hd]
        exact h2

/-- C1: at-most-once visitation. In every crawl run, over any page world,
no normalized URL passes the guard of crawl twice (the crawl log, which
records the Crawling print, has no duplicate URL), because crawl returns
when the normalized URL is already visited and inserts it before any
processing; and on the cyclic page graph A to B to A with maxDepth 2,
each of A and B is crawled exactly once. -/
theorem C1_at_most_once :
    (∀ (env : Env) (url : List Char) (max_depth : Nat),
        ((crawlTop env url max_depth).crawlLog.map Prod.fst).Nodup) ∧
    List.count (chars "http://a.com/a")
        ((crawlTop cycleEnv (chars "http://a.com/a") 2).crawlLog.map Prod.fst) = 1 ∧
    List.count (chars "http://a.com/b")
        ((crawlTop cycleEnv (chars "http://a.com/a") 2).crawlLog.map Prod.fst) = 1 := by
  refine ⟨?_, by decide, by decide⟩
  intro env url m
  have hinit : GoodSt initSt :=
    ⟨List.nodup_nil, fun e he => absurd he (List.not_mem_nil e)⟩
  exact (crawl_preserves_good env (m + 1) initSt url 0 m hinit).1

/-- C2: depth bound. In every crawl run, over any page world, every
crawled URL is processed at depth at most max_depth (every crawl log
entry carries depth at most max_depth, since the guard rejects larger
depths and recursion passes depth plus one only when depth is below the
bound); and on the linear chain A to B to C to D with maxDepth 1 the
visited set is exactly A and B. -/
theorem C2_depth_bound :
    (∀ (env : Env) (url : List Char) (max_depth : Nat) (e : List Char × Nat),
        e ∈ (crawlTop env url max_depth).crawlLog → e.2 ≤ max_depth) ∧
    (crawlTop chainEnv (chars "http://a.com/a") 1).visited =
      [chars "http://a.com/b", chars "http://a.com/a"] := by
  refine ⟨?_, by decide⟩
  intro env url m e he
  have hinit : DepthOk m initSt := fun e he => absurd he (List.not_mem_nil e)
  exact crawl_preserves_depth env m (m + 1) initSt url 0 hinit e he

/-- C2 witness: the depth bound applied to the root entry of the chain
crawl. -/
theorem C2_witness :
    (chars "http://a.com/a", 0) ∈
      (crawlTop chainEnv (chars "http://a.com/a") 1).crawlLog ∧
    ((chars "http://a.com/a", 0) : List Char × Nat).2 ≤ 1 :=
  ⟨by decide,
    C2_depth_bound.1 chainEnv (chars "http://a.com/a") 1
      (chars "http://a.com/a", 0) (by decide)⟩

theorem get_all_images_none (env : Env) (st : CrawlSt) (u : List Char)
    (hf : env.pages u = none) :
    get_all_images env st u = ({ st with fetched := st.fetched ++ [u] }, []) := by
  unfold get_all_images getPage
  dsimp only
  rw [hf]

theorem get_all_links_none (env : Env) (st : CrawlSt) (u b : List Char)
    (hf : env.pages u = none) :
    get_all_links env st u b = ({ st with fetched := st.fetched ++ [u] }, []) := by
  unfold get_all_links getPage
  dsimp only
  rw [hf]

/-- C3: the claim that crawl returns after a failed fetch, with no link
extraction taking place, fails on the code: crawl never fetches the page
itself. The failed fetch happens inside get_all_images, crawl then
continues, and when depth is below the bound it still calls
get_all_links, which fetches the same URL a second time. In a world where
every fetch fails, crawling one URL with maxDepth 1 leaves two GET
attempts for it in the fetch log, where the claim implies a single
attempt followed by a return. -/
theorem C3_counterexample :
    (crawlTop failEnv (chars "http://a.com/x") 1).fetched =
      [chars "http://a.com/x", chars "http://a.com/x"] := by
  decide

/-- C3 (amended): when fetching the URL fails, no images are processed,
no recursion occurs, and the URL stays in the visited set so it is never
retried in the run; but crawl does not return at the failed fetch: when
depth is below maxDepth it still invokes link extraction, which issues a
second fetch of the same URL (and extracts nothing when that fetch fails
too). -/
theorem C3_fetch_failure_amended (env : Env) (url : List Char) (m : Nat)
    (hf : env.pages (normalize_url url) = none) :
    (crawlTop env url m).visited = [normalize_url url] ∧
    (crawlTop env url m).downloads = [] ∧
    (crawlTop env url m).crawlLog = [(normalize_url url, 0)] ∧
    (crawlTop env url m).fetched =
      (if 0 < m then [normalize_url url, normalize_url url]
       else [normalize_url url]) := by
  rw [crawlTop_eq, crawl_succ, if_neg (by simp [initSt])]
  dsimp only
  rw [get_all_images_none env _ _ hf]
  dsimp only
  by_cases hm : 0 < m
  · rw [if_pos hm, get_all_links_none env _ _ _ hf]
    exact ⟨rfl, rfl, rfl, by rw [if_pos hm]; exact rfl⟩
  · rw [if_neg hm]
    exact ⟨rfl, rfl, rfl, by rw [if_neg hm]; exact rfl⟩

/-- C3 witness: the amended fetch-failure behaviour at a concrete URL in
the all-failures world. -/
theorem C3_witness :
    (crawlTop failEnv (chars "http://a.com/y") 1).visited =
      [normalize_url (chars "http://a.com/y")] ∧
    (crawlTop failEnv (chars "http://a.com/y") 1).downloads = [] ∧
    (crawlTop failEnv (chars "http://a.com/y") 1).crawlLog =
      [(normalize_url (chars "http://a.com/y"), 0)] ∧
    (crawlTop failEnv (chars "http://a.com/y") 1).fetched =
      (if 0 < 1 then
        [normalize_url (chars "http://a.com/y"),
          normalize_url (chars "http://a.com/y")]
       else [normalize_url (chars "http://a.com/y")]) :=
  C3_fetch_failure_amended failEnv (chars "http://a.com/y") 1 rfl

/-- C4: the part of the claim saying an href that is empty after trimming
contributes nothing fails on the code: get_all_links has no emptiness
test, so the empty href reaches urljoin, which returns the base URL, and
the normalized base URL lands in the output. A page whose only anchor is
an empty href yields exactly the base URL, where the claim requires an
empty result. -/
theorem C4_counterexample :
    (get_all_links emptyHrefEnv initSt (chars "http://a.com/x")
        (chars "http://a.com/x")).2 = [chars "http://a.com/x"] := by
  decide

/-- C4 (amended): an href starting with a hash or with javascript: after
trimming is skipped and contributes nothing; but an href that is empty
after trimming is not skipped: it resolves through urljoin to the base
URL and contributes the normalized base URL whenever that is valid. -/
theorem C4_link_filtering_amended :
    (∀ (base_url : List Char) (links : List (List Char)) (rawHref : List Char),
        (List.isPrefixOf ['#'] (stripChars rawHref) = true ∨
          List.isPrefixOf (chars "javascript:") (stripChars rawHref) = true) →
        processHref base_url links rawHref = links) ∧
    (∀ (base_url : List Char) (links : List (List Char)) (rawHref : List Char),
        base_url ≠ [] → stripChars rawHref = [] →
        processHref base_url links rawHref =
          (if is_valid_url (normalize_url base_url) = true
           then insertSet links (normalize_url base_url) else links)) := by
  constructor
  · intro b links raw h
    unfold processHref
    dsimp only
    rcases h with h | h
    · rw [if_pos h]
    · have hne : List.isPrefixOf ['#'] (stripChars raw) = false := by
        rcases hc : stripChars raw with _ | ⟨c, t⟩
        · rw [hc] at h
          simp [chars, List.isPrefixOf] at h
        · rw [hc] at h
          have hcj : c = 'j' := by
            revert h
            simp [chars, List.isPrefixOf]
            intro h1 _
            exact h1.symm
          subst hcj
          show (('#' == 'j') && List.isPrefixOf [] t) = false
          rw [show ('#' == 'j') = false from by decide]
          simp
      rw [hne]
      simp only [Bool.false_eq_true, if_false]
      rw [if_pos h]
  · intro b links raw hb he
    unfold processHref
    dsimp only
    rw [he]
    have hj : urljoinM b [] = b := by
      unfold urljoinM
      rw [if_neg hb]
      simp
    simp only [show List.isPrefixOf ['#'] ([] : List Char) = false from rfl,
      show List.isPrefixOf (chars "javascript:") ([] : List Char) = false from rfl,
      Bool.false_eq_true, if_false]
    rw [hj]

/-- C4 witness: the pure-fragment href of the claim is skipped. -/
theorem C4_witness :
    (List.isPrefixOf ['#'] (stripChars (chars "#top")) = true ∨
      List.isPrefixOf (chars "javascript:") (stripChars (chars "#top")) = true) ∧
    processHref (chars "http://a.com/x") [] (chars "#top") = [] :=
  ⟨Or.inl (by decide),
    C4_link_filtering_amended.1 (chars "http://a.com/x") [] (chars "#top")
      (Or.inl (by decide))⟩

/-- C5: classifier short-circuit. When the lower-cased path of the
candidate ends with one of the five extensions, the classifier answers
image with zero HEAD probe calls; otherwise exactly one HEAD probe is
issued and the candidate is an image exactly when the probe answers
status 200 with a Content-Type containing one of the four image types. -/
theorem C5_classifier_short_circuit (head : List Char → Option HeadResp)
    (u : List Char) :
    (imageExts.any (fun e => List.isSuffixOf e (lowerStr (urlparse u).path)) = true →
      classifyImage head u = (true, 0)) ∧
    (imageExts.any (fun e => List.isSuffixOf e (lowerStr (urlparse u).path)) = false →
      (classifyImage head u).2 = 1 ∧
      ((classifyImage head u).1 = true ↔
        ∃ h, head u = some h ∧ h.status = 200 ∧
          imageTypes.any (fun t => containsSub t (lowerStr h.contentType)) = true)) := by
  constructor
  · intro h
    unfold classifyImage
    dsimp only
    rw [if_pos h]
  · intro h
    unfold classifyImage
    dsimp only
    rw [h]
    simp only [Bool.false_eq_true, if_false]
    rcases hh : head u with _ | r
    · dsimp only
      refine ⟨rfl, ?_⟩
      constructor
      · intro hcon
        simp at hcon
      · intro ⟨h2, he, _⟩
        exact absurd he (by simp)
    · dsimp only
      by_cases hs : r.status = 200
      · rw [if_pos hs]
        refine ⟨rfl, ?_⟩
        constructor
        · intro ht
          exact ⟨r, rfl, hs, ht⟩
        · intro ⟨h2, he, _, ht⟩
          injection he with he
          rw [he]
          exact ht
      · rw [if_neg hs]
        refine ⟨rfl, ?_⟩
        constructor
        · intro hcon
          simp at hcon
        · intro ⟨h2, he, hst, _⟩
          injection he with he
          rw [he] at hs
          exact absurd hst hs

/-- C5 witness: a candidate ending in upper-case PNG classifies as an
image with zero probes even against a collaborator that always fails. -/
theorem C5_witness :
    imageExts.any (fun e =>
      List.isSuffixOf e (lowerStr (urlparse (chars "http://a.com/img.PNG")).path)) = true ∧
    classifyImage noHead (chars "http://a.com/img.PNG") = (true, 0) :=
  ⟨by decide,
    (C5_classifier_short_circuit noHead (chars "http://a.com/img.PNG")).1 (by decide)⟩

/-- C6: the blank-basename branch of download_image. The claim says a
filename image_<timestamp> is synthesized and the file is written, but
the source never imports the time module, so the expression
int(time.time()) raises NameError; the blanket except of download_image
catches it, prints the failure, and no file is written. The theorem
evaluates the model, which mirrors the NameError branch, at every such
input: the outcome is the swallowed exception, not a written file. -/
theorem C6_blank_basename_name_error (env : Env) (ex : List Char → Bool)
    (download_path img_url : List Char) (fuel : Nat) (pg : Page)
    (hp : env.pages img_url = some pg)
    (hb : stripChars (basenamePosix (urlparse img_url).path) = []) :
    download_image env ex download_path img_url fuel = DlOutcome.nameError := by
  unfold download_image
  rw [hp]
  dsimp only
  rw [hb]
  rfl

/-- C6 witness: fetching http://a.com/ succeeds, its basename is blank,
and the download ends in the swallowed NameError with no file written. -/
theorem C6_witness :
    download_image photoEnv exEmpty (chars "./data/") (chars "http://a.com/") 5 =
      DlOutcome.nameError :=
  C6_blank_basename_name_error photoEnv exEmpty (chars "./data/")
    (chars "http://a.com/") 5 ⟨[], [], chars "image/jpeg"⟩ rfl (by decide)

/-- C7: collision resolution. The while loop of download_image only ever
returns a path that the existence check just reported absent, and the
concrete scenario of the claim holds: downloading photo.jpg into an empty
directory writes ./data/photo.jpg, and downloading another URL with the
same base name while that file exists writes ./data/photo_1.jpg, the
first free numbered candidate. -/
theorem C7_collision_resolution :
    (∀ (ex : List Char → Bool) (dp fn fp : List Char) (ctr fuel : Nat)
        (p : List Char),
        collisionLoop ex dp fn fp ctr fuel = some p → ex p = false) ∧
    download_image photoEnv exEmpty (chars "./data/")
        (chars "http://a.com/photo.jpg") 5 =
      DlOutcome.written (chars "./data/photo.jpg") ∧
    download_image photoEnv exPhoto (chars "./data/")
        (chars "http://b.com/photo.jpg") 5 =
      DlOutcome.written (chars "./data/photo_1.jpg") := by
  refine ⟨?_, by decide, by decide⟩
  intro ex dp fn fp ctr fuel
  induction fuel generalizing fp ctr with
  | zero =>
    intro p h
    simp [collisionLoop] at h
  | succ n ih =>
    intro p h
    rw [collisionLoop] at h
    by_cases he : ex fp = true
    · rw [if_pos he] at h
      exact ih _ _ p h
    · rw [if_neg he] at h
      injection h with h
      rw [← h]
      exact Bool.not_eq_true _ ▸ he

/-- C7 witness: the free-path property applied to the collision loop run
that resolves the photo.jpg clash. -/
theorem C7_witness :
    collisionLoop exPhoto (chars "./data/") (chars "photo.jpg")
        (chars "./data/photo.jpg") 1 5 =
      some (chars "./data/photo_1.jpg") ∧
    exPhoto (chars "./data/photo_1.jpg") = false :=
  ⟨by decide,
    C7_collision_resolution.1 exPhoto (chars "./data/") (chars "photo.jpg")
      (chars "./data/photo.jpg") 1 5 (chars "./data/photo_1.jpg") (by decide)⟩
